import Mathlib

/-!
Verification of the detection-record pipeline of the OpenCV-YOLO repository
(`src/ch3/scripts/export_detections.py`, `src/ch3/scripts/refine_detections.py`,
`src/ch3/scripts/detection_summary.py`) against its natural-language
specification.

The Python code is shallowly embedded: Python floats are modelled as exact
rationals (`ℚ`), Python ints as `ℤ`, Python `None` as `Option.none`, Python
lists as `List`, and the filesystem as an explicit list of file paths.
Numeric-string tokens of an annotation line are abstracted as `Option ℚ`:
`some q` stands for a token on which Python's `float()` succeeds with value
`q`, and `none` for a token on which `float()` raises `ValueError`.
-/

namespace OpenCVYolo

/-! ## Python primitives used by the scripts -/

/-- Python's `int(x)` on a (finite) float value: truncation toward zero. -/
def pyInt (q : ℚ) : ℤ := if 0 ≤ q then ⌊q⌋ else -⌊-q⌋

/-- Python 3's builtin `round(x)` on a (finite) float value: round to the
nearest integer, ties going to the nearest even integer. -/
def pyRound (q : ℚ) : ℤ :=
  if q - ⌊q⌋ < 1/2 then ⌊q⌋
  else if 1/2 < q - ⌊q⌋ then ⌊q⌋ + 1
  else if ⌊q⌋ % 2 = 0 then ⌊q⌋ else ⌊q⌋ + 1

/-- Rounding half away from zero, the rounding mode named by the spec for the
CoordinateMapper.  (This is *not* what Python's `round` does; see the claim
C3 theorems.) -/
def roundHalfAwayFromZero (q : ℚ) : ℤ :=
  if 0 ≤ q then ⌊q + 1/2⌋ else -⌊-q + 1/2⌋

/-! ## `export_detections.py`: clamp, parse_label_line, convert_to_pixels -/

/-- `clamp` from `export_detections.py`:
`return max(min_value, min(value, max_value))`. -/
def clamp (value min_value max_value : ℚ) : ℚ :=
  max min_value (min value max_value)

/-- `parse_label_line` from `export_detections.py`, over a whitespace-split
line.  Each token is abstracted as `Option ℚ` (`some q` = `float()` succeeds
with value `q`; `none` = `float()` raises).  The Python code raises
`ValueError` when fewer than 5 tokens are present or any `float()` call on
tokens 0–4 (and token 5 when present) fails; that is modelled as `none`.
`class_id = int(float(parts[0]))` truncates toward zero; tokens past the
sixth are never read. -/
def parse_label_line : List (Option ℚ) → Option (ℤ × ℚ × ℚ × ℚ × ℚ × Option ℚ)
  | some t0 :: some t1 :: some t2 :: some t3 :: some t4 :: rest =>
    match rest with
    | [] => some (pyInt t0, t1, t2, t3, t4, none)
    | some t5 :: _ => some (pyInt t0, t1, t2, t3, t4, some t5)
    | none :: _ => none
  | _ => none

/-- `convert_to_pixels` from `export_detections.py`. -/
def convert_to_pixels (cx cy w h : ℚ) (width height : ℤ) :
    ℤ × ℤ × ℤ × ℤ :=
  let x_center := cx * (width : ℚ)
  let y_center := cy * (height : ℚ)
  let box_w := w * (width : ℚ)
  let box_h := h * (height : ℚ)
  let x1 := clamp (x_center - box_w / 2) 0 (width : ℚ)
  let y1 := clamp (y_center - box_h / 2) 0 (height : ℚ)
  let x2 := clamp (x_center + box_w / 2) 0 (width : ℚ)
  let y2 := clamp (y_center + box_h / 2) 0 (height : ℚ)
  (pyRound x1, pyRound y1, pyRound x2, pyRound y2)

/-- The CoordinateMapper formula exactly as worded in spec §4.2, but with the
rounding mode amended from round-half-away-from-zero to Python's
round-half-to-even (`pyRound`): compute `x_center = cx·width` etc., derive the
four edges, clamp each to `[0, width]` or `[0, height]`, round each. -/
def coordinateMapperSpecHalfEven (cx cy w h : ℚ) (width height : ℤ) :
    ℤ × ℤ × ℤ × ℤ :=
  (pyRound (clamp (cx * (width : ℚ) - w * (width : ℚ) / 2) 0 (width : ℚ)),
   pyRound (clamp (cy * (height : ℚ) - h * (height : ℚ) / 2) 0 (height : ℚ)),
   pyRound (clamp (cx * (width : ℚ) + w * (width : ℚ) / 2) 0 (width : ℚ)),
   pyRound (clamp (cy * (height : ℚ) + h * (height : ℚ) / 2) 0 (height : ℚ)))

/-- The CoordinateMapper formula exactly as worded in spec §4.2, including its
claimed round-half-away-from-zero rounding mode. -/
def coordinateMapperSpecHalfAway (cx cy w h : ℚ) (width height : ℤ) :
    ℤ × ℤ × ℤ × ℤ :=
  (roundHalfAwayFromZero (clamp (cx * (width : ℚ) - w * (width : ℚ) / 2) 0 (width : ℚ)),
   roundHalfAwayFromZero (clamp (cy * (height : ℚ) - h * (height : ℚ) / 2) 0 (height : ℚ)),
   roundHalfAwayFromZero (clamp (cx * (width : ℚ) + w * (width : ℚ) / 2) 0 (width : ℚ)),
   roundHalfAwayFromZero (clamp (cy * (height : ℚ) + h * (height : ℚ) / 2) 0 (height : ℚ)))

/-! ## Lemmas about `pyRound` and `clamp` -/

theorem pyRound_eq_floor_or_succ (q : ℚ) :
    pyRound q = ⌊q⌋ ∨ pyRound q = ⌊q⌋ + 1 := by
  unfold pyRound
  split
  · exact Or.inl rfl
  · split
    · exact Or.inr rfl
    · split
      · exact Or.inl rfl
      · exact Or.inr rfl

theorem floor_le_pyRound (q : ℚ) : ⌊q⌋ ≤ pyRound q := by
  rcases pyRound_eq_floor_or_succ q with h | h <;> omega

theorem pyRound_eq_floor_of_lt_half (q : ℚ) (h : q - ⌊q⌋ < 1/2) :
    pyRound q = ⌊q⌋ := by
  unfold pyRound
  rw [if_pos h]

theorem pyRound_nonneg (q : ℚ) (hq : 0 ≤ q) : 0 ≤ pyRound q := by
  have h0 : (0 : ℤ) ≤ ⌊q⌋ := by
    rw [Int.le_floor]
    exact_mod_cast hq
  have := floor_le_pyRound q
  omega

theorem pyRound_le_of_le_int (q : ℚ) (n : ℤ) (hq : q ≤ (n : ℚ)) :
    pyRound q ≤ n := by
  have hfl : ⌊q⌋ ≤ n := by
    calc ⌊q⌋ ≤ ⌊(n : ℚ)⌋ := Int.floor_mono hq
    _ = n := Int.floor_intCast n
  rcases pyRound_eq_floor_or_succ q with h | h
  · omega
  · rw [h]
    by_contra hcon
    have hfn : ⌊q⌋ = n := by omega
    have hlt : q - ⌊q⌋ < 1/2 := by
      rw [hfn]
      have : q - (n : ℚ) ≤ 0 := by linarith
      linarith
    have := pyRound_eq_floor_of_lt_half q hlt
    omega

theorem pyRound_mono (q q' : ℚ) (h : q ≤ q') : pyRound q ≤ pyRound q' := by
  have hfl : ⌊q⌋ ≤ ⌊q'⌋ := Int.floor_mono h
  rcases lt_or_eq_of_le hfl with hlt | heq
  · have h1 : pyRound q ≤ ⌊q⌋ + 1 := by
      rcases pyRound_eq_floor_or_succ q with h2 | h2 <;> omega
    have h2 := floor_le_pyRound q'
    omega
  · -- same floor: compare fractional parts
    unfold pyRound
    rw [← heq]
    rcases lt_trichotomy (q - ⌊q⌋) (1/2 : ℚ) with hq1 | hq1 | hq1
    · rw [if_pos hq1]
      split
      · omega
      · split
        · omega
        · split <;> omega
    · rw [if_neg (by rw [hq1]; exact lt_irrefl _), if_neg (by rw [hq1]; exact lt_irrefl _)]
      have hq'1 : ¬ (q' - (⌊q⌋ : ℚ) < 1/2) := by
        have : (1/2 : ℚ) ≤ q' - ⌊q⌋ := by
          have : q - ⌊q⌋ ≤ q' - ⌊q⌋ := by linarith
          linarith [hq1]
        linarith
      rw [if_neg hq'1]
      split
      · split <;> omega
      · split <;> omega
    · have hh : ¬ (q - (⌊q⌋:ℚ) < 1/2) := by linarith
      rw [if_neg hh, if_pos hq1]
      have hq'2 : (1/2 : ℚ) < q' - ⌊q⌋ := by
        have : q - ⌊q⌋ ≤ q' - ⌊q⌋ := by linarith
        linarith
      have hq'1 : ¬ (q' - (⌊q⌋ : ℚ) < 1/2) := by linarith
      rw [if_neg hq'1, if_pos hq'2]

theorem clamp_le (v minv maxv : ℚ) (h : minv ≤ maxv) :
    minv ≤ clamp v minv maxv ∧ clamp v minv maxv ≤ maxv := by
  unfold clamp
  constructor
  · exact le_max_left _ _
  · exact max_le h (min_le_right _ _)

theorem clamp_mono (v v' minv maxv : ℚ) (h : v ≤ v') :
    clamp v minv maxv ≤ clamp v' minv maxv := by
  unfold clamp
  exact max_le_max le_rfl (min_le_min h le_rfl)

/-- Shared bound: rounding a value clamped to `[0, n]` stays in `[0, n]`. -/
theorem pyRound_clamp_bounds (v : ℚ) (n : ℤ) (hn : 0 ≤ n) :
    0 ≤ pyRound (clamp v 0 (n : ℚ)) ∧ pyRound (clamp v 0 (n : ℚ)) ≤ n := by
  have hn' : (0 : ℚ) ≤ (n : ℚ) := by exact_mod_cast hn
  obtain ⟨h1, h2⟩ := clamp_le v 0 (n : ℚ) hn'
  exact ⟨pyRound_nonneg _ h1, pyRound_le_of_le_int _ n h2⟩

/-! ## Claim C9: every individual output coordinate is within bounds -/

/-- Claim C9: for every rational `cx, cy, w, h` (any sign or magnitude) and
positive integer `width`, `height`, each individual coordinate produced by
`convert_to_pixels` lies within bounds: `x1, x2 ∈ [0, width]` and
`y1, y2 ∈ [0, height]`, even when the ordering `x1 ≤ x2` fails. -/
theorem claim_C9_individual_bounds (cx cy w h : ℚ) (width height : ℤ)
    (hw : 0 < width) (hh : 0 < height) :
    (0 ≤ (convert_to_pixels cx cy w h width height).1 ∧
      (convert_to_pixels cx cy w h width height).1 ≤ width) ∧
    (0 ≤ (convert_to_pixels cx cy w h width height).2.1 ∧
      (convert_to_pixels cx cy w h width height).2.1 ≤ height) ∧
    (0 ≤ (convert_to_pixels cx cy w h width height).2.2.1 ∧
      (convert_to_pixels cx cy w h width height).2.2.1 ≤ width) ∧
    (0 ≤ (convert_to_pixels cx cy w h width height).2.2.2 ∧
      (convert_to_pixels cx cy w h width height).2.2.2 ≤ height) :=
  ⟨pyRound_clamp_bounds _ width hw.le,
   pyRound_clamp_bounds _ height hh.le,
   pyRound_clamp_bounds _ width hw.le,
   pyRound_clamp_bounds _ height hh.le⟩

/-- Witness for C9 at a concrete input with out-of-range normalized
coordinates. -/
theorem claim_C9_witness :
    ((0 : ℤ) < 100 ∧ (0 : ℤ) < 200) ∧
    ((0 ≤ (convert_to_pixels 3 (-2) 5 7 100 200).1 ∧
        (convert_to_pixels 3 (-2) 5 7 100 200).1 ≤ 100) ∧
      (0 ≤ (convert_to_pixels 3 (-2) 5 7 100 200).2.1 ∧
        (convert_to_pixels 3 (-2) 5 7 100 200).2.1 ≤ 200) ∧
      (0 ≤ (convert_to_pixels 3 (-2) 5 7 100 200).2.2.1 ∧
        (convert_to_pixels 3 (-2) 5 7 100 200).2.2.1 ≤ 100) ∧
      (0 ≤ (convert_to_pixels 3 (-2) 5 7 100 200).2.2.2 ∧
        (convert_to_pixels 3 (-2) 5 7 100 200).2.2.2 ≤ 200)) :=
  ⟨⟨by norm_num, by norm_num⟩,
   claim_C9_individual_bounds 3 (-2) 5 7 100 200 (by norm_num) (by norm_num)⟩

/-! ## Claim C1: the full ordering invariant needs nonnegative `w`, `h` -/

/-- Claim C1 counterexample: the parser accepts a negative box width
(`float("-0.5")` succeeds), and for `w = h = -1/2` on a 100×100 image the
converted box has `x1 = 75 > x2 = 25`, so `x1 ≤ x2` fails as does `y1 ≤ y2`.
This refutes the claim for arbitrary parser-accepted reals. -/
theorem claim_C1_counterexample :
    convert_to_pixels (1/2) (1/2) (-(1/2)) (-(1/2)) 100 100 = (75, 75, 25, 25) ∧
    ¬ ((convert_to_pixels (1/2) (1/2) (-(1/2)) (-(1/2)) 100 100).1 ≤
        (convert_to_pixels (1/2) (1/2) (-(1/2)) (-(1/2)) 100 100).2.2.1) := by
  constructor
  · norm_num [convert_to_pixels, clamp, pyRound]
  · norm_num [convert_to_pixels, clamp, pyRound]

/-- Claim C1 (amended): for every parsed detection with *nonnegative* `w` and
`h` and positive image dimensions, the converted pixel box satisfies
`0 ≤ x1 ≤ x2 ≤ width` and `0 ≤ y1 ≤ y2 ≤ height`. -/
theorem claim_C1_amended (cx cy w h : ℚ) (width height : ℤ)
    (hw : 0 < width) (hh : 0 < height) (hwn : 0 ≤ w) (hhn : 0 ≤ h) :
    (0 ≤ (convert_to_pixels cx cy w h width height).1 ∧
      (convert_to_pixels cx cy w h width height).1 ≤
        (convert_to_pixels cx cy w h width height).2.2.1 ∧
      (convert_to_pixels cx cy w h width height).2.2.1 ≤ width) ∧
    (0 ≤ (convert_to_pixels cx cy w h width height).2.1 ∧
      (convert_to_pixels cx cy w h width height).2.1 ≤
        (convert_to_pixels cx cy w h width height).2.2.2 ∧
      (convert_to_pixels cx cy w h width height).2.2.2 ≤ height) := by
  have hwq : (0 : ℚ) ≤ (width : ℚ) := by exact_mod_cast hw.le
  have hhq : (0 : ℚ) ≤ (height : ℚ) := by exact_mod_cast hh.le
  have hbw : (0 : ℚ) ≤ w * (width : ℚ) / 2 := by positivity
  have hbh : (0 : ℚ) ≤ h * (height : ℚ) / 2 := by positivity
  have hx : cx * (width : ℚ) - w * (width : ℚ) / 2 ≤
      cx * (width : ℚ) + w * (width : ℚ) / 2 := by linarith
  have hy : cy * (height : ℚ) - h * (height : ℚ) / 2 ≤
      cy * (height : ℚ) + h * (height : ℚ) / 2 := by linarith
  refine ⟨⟨?_, ?_, ?_⟩, ⟨?_, ?_, ?_⟩⟩
  · exact (pyRound_clamp_bounds _ width hw.le).1
  · exact pyRound_mono _ _ (clamp_mono _ _ _ _ hx)
  · exact (pyRound_clamp_bounds _ width hw.le).2
  · exact (pyRound_clamp_bounds _ height hh.le).1
  · exact pyRound_mono _ _ (clamp_mono _ _ _ _ hy)
  · exact (pyRound_clamp_bounds _ height hh.le).2

/-- Witness for the amended C1 at the spec's concrete example line. -/
theorem claim_C1_witness :
    ((0 : ℤ) < 100 ∧ (0 : ℤ) < 200 ∧ (0 : ℚ) ≤ 1/5 ∧ (0 : ℚ) ≤ 2/5) ∧
    ((0 ≤ (convert_to_pixels (1/2) (1/2) (1/5) (2/5) 100 200).1 ∧
        (convert_to_pixels (1/2) (1/2) (1/5) (2/5) 100 200).1 ≤
          (convert_to_pixels (1/2) (1/2) (1/5) (2/5) 100 200).2.2.1 ∧
        (convert_to_pixels (1/2) (1/2) (1/5) (2/5) 100 200).2.2.1 ≤ 100) ∧
      (0 ≤ (convert_to_pixels (1/2) (1/2) (1/5) (2/5) 100 200).2.1 ∧
        (convert_to_pixels (1/2) (1/2) (1/5) (2/5) 100 200).2.1 ≤
          (convert_to_pixels (1/2) (1/2) (1/5) (2/5) 100 200).2.2.2 ∧
        (convert_to_pixels (1/2) (1/2) (1/5) (2/5) 100 200).2.2.2 ≤ 200)) :=
  ⟨⟨by norm_num, by norm_num, by norm_num, by norm_num⟩,
   claim_C1_amended (1/2) (1/2) (1/5) (2/5) 100 200
     (by norm_num) (by norm_num) (by norm_num) (by norm_num)⟩

/-! ## Claim C3: conversion formula and rounding mode -/

/-- Claim C3 counterexample: on the input `cx = cy = w = h = 0.5` with a 6×6
image (all values exactly representable as binary floats), the code computes
the edges `x1 = y1 = 1.5` and `x2 = y2 = 4.5` and Python's `round` (half to
even) yields `(2, 2, 4, 4)`, while the round-half-away-from-zero mapper the
claim describes yields `(2, 2, 5, 5)`. -/
theorem claim_C3_counterexample :
    convert_to_pixels (1/2) (1/2) (1/2) (1/2) 6 6 = (2, 2, 4, 4) ∧
    coordinateMapperSpecHalfAway (1/2) (1/2) (1/2) (1/2) 6 6 = (2, 2, 5, 5) ∧
    convert_to_pixels (1/2) (1/2) (1/2) (1/2) 6 6 ≠
      coordinateMapperSpecHalfAway (1/2) (1/2) (1/2) (1/2) 6 6 := by
  refine ⟨?_, ?_, ?_⟩
  · norm_num [convert_to_pixels, clamp, pyRound]
  · norm_num [coordinateMapperSpecHalfAway, clamp, roundHalfAwayFromZero]
  · norm_num [convert_to_pixels, coordinateMapperSpecHalfAway, clamp, pyRound,
      roundHalfAwayFromZero]

/-- Claim C3 (amended): the conversion computes `x_center = cx·width`,
`y_center = cy·height`, `box_w = w·width`, `box_h = h·height`, derives the
four edges, clamps each to `[0, width]` or `[0, height]`, and rounds each to
the nearest integer using Python's round-half-to-even (not
round-half-away-from-zero); the line `"0 0.5 0.5 0.2 0.4 0.9"` on a 100×200
image yields `bbox_pixel = (40, 60, 60, 140)`. -/
theorem claim_C3_amended :
    (∀ (cx cy w h : ℚ) (width height : ℤ),
      convert_to_pixels cx cy w h width height =
        coordinateMapperSpecHalfEven cx cy w h width height) ∧
    convert_to_pixels (1/2) (1/2) (1/5) (2/5) 100 200 = (40, 60, 60, 140) := by
  constructor
  · intro cx cy w h width height
    rfl
  · norm_num [convert_to_pixels, clamp, pyRound]

/-! ## Claim C4: when the label-line parser fails -/

/-- Claim C4 counterexample: the token `"2.7"` is expressible as a float but
has a non-integral value, yet `parse_label_line` accepts it: Python's
`int(float("2.7"))` truncates to `2` instead of raising.  This refutes the
"only if it is expressible as a float with integral value" part of the
claim. -/
theorem claim_C4_counterexample :
    parse_label_line [some (27/10), some 0, some 0, some 0, some 0]
      = some (2, 0, 0, 0, 0, none) ∧
    ¬ ∃ n : ℤ, (27/10 : ℚ) = (n : ℚ) := by
  constructor
  · norm_num [parse_label_line, pyInt]
  · rintro ⟨n, hn⟩
    have h : (27 : ℚ) = (n : ℚ) * 10 := by
      field_simp at hn
      linarith
    have h' : (27 : ℤ) = n * 10 := by exact_mod_cast h
    omega

/-- Claim C4 (amended): parsing fails exactly when the tokenized line has
fewer than 5 tokens, or one of the first five tokens is non-numeric, or a
sixth token is present and non-numeric; the first token is accepted as a
class id whenever it is numeric, its float value being truncated toward zero
(Python's `int(float(...))`). -/
theorem claim_C4_amended (parts : List (Option ℚ)) :
    (parse_label_line parts = none ↔
      parts.length < 5 ∨ (∃ i, i < 5 ∧ parts[i]? = some none) ∨
        (5 < parts.length ∧ parts[5]? = some none)) ∧
    (∀ t, parse_label_line parts = some t →
      ∃ q, parts[0]? = some (some q) ∧ t.1 = pyInt q) := by
  rcases parts with _ | ⟨o0, parts⟩
  · constructor
    · simp [parse_label_line]
    · intro t ht
      simp [parse_label_line] at ht
  rcases o0 with _ | t0
  · constructor
    · simp only [parse_label_line]
      constructor
      · intro _
        exact Or.inr (Or.inl ⟨0, by omega, by simp⟩)
      · intro _
        trivial
    · intro t ht
      simp [parse_label_line] at ht
  rcases parts with _ | ⟨o1, parts⟩
  · constructor
    · simp [parse_label_line]
    · intro t ht
      simp [parse_label_line] at ht
  rcases o1 with _ | t1
  · constructor
    · simp only [parse_label_line]
      constructor
      · intro _
        exact Or.inr (Or.inl ⟨1, by omega, by simp⟩)
      · intro _
        trivial
    · intro t ht
      simp [parse_label_line] at ht
  rcases parts with _ | ⟨o2, parts⟩
  · constructor
    · simp [parse_label_line]
    · intro t ht
      simp [parse_label_line] at ht
  rcases o2 with _ | t2
  · constructor
    · simp only [parse_label_line]
      constructor
      · intro _
        exact Or.inr (Or.inl ⟨2, by omega, by simp⟩)
      · intro _
        trivial
    · intro t ht
      simp [parse_label_line] at ht
  rcases parts with _ | ⟨o3, parts⟩
  · constructor
    · simp [parse_label_line]
    · intro t ht
      simp [parse_label_line] at ht
  rcases o3 with _ | t3
  · constructor
    · simp only [parse_label_line]
      constructor
      · intro _
        exact Or.inr (Or.inl ⟨3, by omega, by simp⟩)
      · intro _
        trivial
    · intro t ht
      simp [parse_label_line] at ht
  rcases parts with _ | ⟨o4, parts⟩
  · constructor
    · simp [parse_label_line]
    · intro t ht
      simp [parse_label_line] at ht
  rcases o4 with _ | t4
  · constructor
    · simp only [parse_label_line]
      constructor
      · intro _
        exact Or.inr (Or.inl ⟨4, by omega, by simp⟩)
      · intro _
        trivial
    · intro t ht
      simp [parse_label_line] at ht
  rcases parts with _ | ⟨o5, parts⟩
  · constructor
    · simp only [parse_label_line]
      constructor
      · intro h
        simp at h
      · rintro (h1 | ⟨i, hi, hj⟩ | ⟨h5, hj⟩)
        · simp at h1
        · interval_cases i <;> simp_all
        · simp at h5
    · intro t ht
      simp only [parse_label_line, Option.some_inj] at ht
      exact ⟨t0, rfl, by rw [← ht]⟩
  rcases o5 with _ | t5
  · constructor
    · simp only [parse_label_line]
      constructor
      · intro _
        refine Or.inr (Or.inr ⟨by simp, by simp⟩)
      · intro _
        trivial
    · intro t ht
      simp [parse_label_line] at ht
  · constructor
    · simp only [parse_label_line]
      constructor
      · intro h
        simp at h
      · rintro (h1 | ⟨i, hi, hj⟩ | ⟨h5, hj⟩)
        · simp at h1
          omega
        · interval_cases i <;> simp_all
        · simp at hj
    · intro t ht
      simp only [parse_label_line, Option.some_inj] at ht
      exact ⟨t0, rfl, by rw [← ht]⟩

/-- Witness for the amended C4: a junk sixth token makes parsing fail, and a
successful parse whose class id is the truncated first token. -/
theorem claim_C4_witness :
    parse_label_line [some 3, some 1, some 1, some 1, some 1, none] = none ∧
    ∃ q, ([some (3 : ℚ), some 1, some 1, some 1, some 1] :
        List (Option ℚ))[0]? = some (some q) ∧
      ((pyInt 3, (1 : ℚ), (1 : ℚ), (1 : ℚ), (1 : ℚ),
        (none : Option ℚ)) : ℤ × ℚ × ℚ × ℚ × ℚ × Option ℚ).1 = pyInt q :=
  ⟨(claim_C4_amended [some 3, some 1, some 1, some 1, some 1, none]).1.mpr
      (Or.inr (Or.inr ⟨by simp, rfl⟩)),
   (claim_C4_amended [some 3, some 1, some 1, some 1, some 1]).2
      (pyInt 3, 1, 1, 1, 1, none) rfl⟩

/-! ## Claim C10: tokens past the sixth are ignored -/

/-- Claim C10: a line with at least six numeric tokens parses successfully,
the result uses only the first six tokens, and everything past the sixth is
ignored (the parse equals the parse of the first six tokens alone). -/
theorem claim_C10_extra_tokens_ignored (t0 t1 t2 t3 t4 t5 : ℚ)
    (rest : List (Option ℚ)) :
    parse_label_line
        (some t0 :: some t1 :: some t2 :: some t3 :: some t4 :: some t5 :: rest)
      = some (pyInt t0, t1, t2, t3, t4, some t5) ∧
    parse_label_line
        (some t0 :: some t1 :: some t2 :: some t3 :: some t4 :: some t5 :: rest)
      = parse_label_line
        ((some t0 :: some t1 :: some t2 :: some t3 :: some t4 :: some t5 ::
          rest).take 6) :=
  ⟨rfl, rfl⟩

/-! ## `find_image_for_label`: filesystem model -/

/-- A file path, split as Python's `pathlib` sees it: directory components,
base name (`Path.stem`) and extension (`Path.suffix`, dot included). -/
structure FsPath where
  dirs : List String
  stem : String
  ext : String
deriving DecidableEq

/-- `IMAGE_EXTENSIONS` from `export_detections.py`, in order. -/
def IMAGE_EXTENSIONS : List String :=
  [".jpg", ".jpeg", ".png", ".bmp", ".tif", ".tiff", ".webp"]

/-- Whether `root` is an ancestor-or-self directory of `d`; `rglob` under
`runs_dir` only yields paths below `runs_dir`. -/
def isUnder : List String → List String → Bool
  | [], _ => true
  | _ :: _, [] => false
  | a :: as, b :: bs => a = b && isUnder as bs

/-- The `base_dir` computed by `find_image_for_label`: the label file's
grandparent directory when its parent directory is literally named
`"labels"`, else `runs_dir` itself. -/
def baseDirOf (runs_dir : List String) (label_path : FsPath) : List String :=
  if label_path.dirs.getLast? = some "labels"
    then label_path.dirs.dropLast else runs_dir

/-- Iteration of the Python set literal `{runs_dir, base_dir}`: a single
element when the two coincide, otherwise both elements in an order the
Python language does not specify (set iteration order depends on the string
hash seed); the parameter `order` selects which of the two realizable orders
is taken. -/
def setPair (order : Bool) (a b : List String) : List (List String) :=
  if a = b then [a] else if order then [a, b] else [b, a]

/-- The first phase of `find_image_for_label`: `for directory in
{runs_dir, base_dir}: for ext in IMAGE_EXTENSIONS: ...` returning the first
existing candidate. -/
def dirSearch (order : Bool) (fs : List FsPath)
    (runs_dir : List String) (label_path : FsPath) : Option FsPath :=
  (setPair order runs_dir (baseDirOf runs_dir label_path)).findSome?
    (fun d => IMAGE_EXTENSIONS.findSome? (fun e =>
      if (⟨d, label_path.stem, e⟩ : FsPath) ∈ fs
        then some ⟨d, label_path.stem, e⟩ else none))

/-- The fallback phase of `find_image_for_label`: for each extension in
order, `runs_dir.rglob(stem + ext)`, returning the first match. -/
def rglobSearch (fs : List FsPath) (runs_dir : List String)
    (label_path : FsPath) : Option FsPath :=
  IMAGE_EXTENSIONS.findSome? (fun e =>
    (fs.filter (fun f =>
      isUnder runs_dir f.dirs && f.stem == label_path.stem &&
        f.ext == e)).head?)

/-- `find_image_for_label` from `export_detections.py`, over the filesystem
model `fs`: the list of existing files, listed in the traversal order that
`rglob` uses.  `order` fixes the unspecified iteration order of
`{runs_dir, base_dir}`.  `none` models raising `FileNotFoundError`. -/
def find_image_for_label (order : Bool) (fs : List FsPath)
    (runs_dir : List String) (label_path : FsPath) : Option FsPath :=
  match dirSearch order fs runs_dir label_path with
  | some p => some p
  | none => rglobSearch fs runs_dir label_path

/-- A file that `find_image_for_label` could legitimately return: an existing
file with the label's base name, an image extension, lying directly in
`runs_dir`, directly in the grandparent `base_dir`, or anywhere below
`runs_dir`. -/
def imageCandidate (fs : List FsPath) (runs_dir : List String)
    (label_path : FsPath) (f : FsPath) : Prop :=
  f ∈ fs ∧ f.stem = label_path.stem ∧ f.ext ∈ IMAGE_EXTENSIONS ∧
    (f.dirs = runs_dir ∨ f.dirs = baseDirOf runs_dir label_path ∨
      isUnder runs_dir f.dirs = true)

theorem isUnder_refl (d : List String) : isUnder d d = true := by
  induction d with
  | nil => rfl
  | cons a as ih => simp [isUnder, ih]

theorem mem_setPair (order : Bool) (a b d : List String) :
    d ∈ setPair order a b ↔ d = a ∨ d = b := by
  unfold setPair
  split
  · subst b
    simp
  · split <;> simp [or_comm]

theorem head?_mem {α : Type _} {l : List α} {a : α} (h : l.head? = some a) :
    a ∈ l := by
  cases l with
  | nil => simp at h
  | cons b bs =>
    simp only [List.head?_cons, Option.some_inj] at h
    subst h
    exact List.mem_cons_self _ _

theorem dirSearch_eq_some (order : Bool) (fs : List FsPath)
    (runs_dir : List String) (label_path : FsPath) (p : FsPath)
    (h : dirSearch order fs runs_dir label_path = some p) :
    p ∈ fs ∧ p.stem = label_path.stem ∧ p.ext ∈ IMAGE_EXTENSIONS ∧
      (p.dirs = runs_dir ∨ p.dirs = baseDirOf runs_dir label_path) := by
  unfold dirSearch at h
  obtain ⟨d, hdmem, hdeq⟩ := List.exists_of_findSome?_eq_some h
  obtain ⟨e, hemem, heeq⟩ := List.exists_of_findSome?_eq_some hdeq
  by_cases hin : (⟨d, label_path.stem, e⟩ : FsPath) ∈ fs
  · rw [if_pos hin, Option.some_inj] at heeq
    subst heeq
    exact ⟨hin, rfl, hemem, (mem_setPair order _ _ d).mp hdmem⟩
  · rw [if_neg hin] at heeq
    cases heeq

theorem dirSearch_eq_none (order : Bool) (fs : List FsPath)
    (runs_dir : List String) (label_path : FsPath)
    (h : dirSearch order fs runs_dir label_path = none) :
    ∀ d, (d = runs_dir ∨ d = baseDirOf runs_dir label_path) →
      ∀ e ∈ IMAGE_EXTENSIONS, (⟨d, label_path.stem, e⟩ : FsPath) ∉ fs := by
  unfold dirSearch at h
  rw [List.findSome?_eq_none_iff] at h
  intro d hd e he hin
  have hd' : d ∈ setPair order runs_dir (baseDirOf runs_dir label_path) :=
    (mem_setPair order _ _ d).mpr hd
  have := h d hd'
  rw [List.findSome?_eq_none_iff] at this
  have := this e he
  rw [if_pos hin] at this
  cases this

theorem rglobSearch_eq_some (fs : List FsPath) (runs_dir : List String)
    (label_path : FsPath) (p : FsPath)
    (h : rglobSearch fs runs_dir label_path = some p) :
    p ∈ fs ∧ p.stem = label_path.stem ∧ p.ext ∈ IMAGE_EXTENSIONS ∧
      isUnder runs_dir p.dirs = true := by
  unfold rglobSearch at h
  obtain ⟨e, hemem, heeq⟩ := List.exists_of_findSome?_eq_some h
  have hp := head?_mem heeq
  rw [List.mem_filter] at hp
  obtain ⟨hpfs, hpred⟩ := hp
  simp only [Bool.and_eq_true, beq_iff_eq] at hpred
  obtain ⟨⟨hunder, hstem⟩, hext⟩ := hpred
  subst hext
  exact ⟨hpfs, hstem, hemem, hunder⟩

theorem rglobSearch_eq_none (fs : List FsPath) (runs_dir : List String)
    (label_path : FsPath)
    (h : rglobSearch fs runs_dir label_path = none) :
    ∀ f ∈ fs, f.stem = label_path.stem → f.ext ∈ IMAGE_EXTENSIONS →
      isUnder runs_dir f.dirs = false := by
  unfold rglobSearch at h
  rw [List.findSome?_eq_none_iff] at h
  intro f hfs hstem hext
  have h2 := h f.ext hext
  rw [List.head?_eq_none_iff, List.filter_eq_nil_iff] at h2
  have h3 := h2 f hfs
  cases hlem : isUnder runs_dir f.dirs
  · rfl
  · exfalso
    apply h3
    simp [hlem, hstem]

/-! ## Claim C5: image resolver search order -/

/-- Claim C5 counterexample: the Python code iterates the *set*
`{runs_dir, base_dir}`, whose iteration order is unspecified (it depends on
the randomized string hash seed).  Under the realizable iteration order that
yields `base_dir` first, the resolver returns the grandparent-directory
candidate `runs/exp/a.jpg` even though the root candidate `runs/a.jpg`
exists, contradicting the claimed fixed order (root first, then
grandparent). -/
theorem claim_C5_counterexample :
    find_image_for_label false
        [⟨["runs"], "a", ".jpg"⟩, ⟨["runs", "exp"], "a", ".jpg"⟩]
        ["runs"] ⟨["runs", "exp", "labels"], "a", ".txt"⟩
      = some ⟨["runs", "exp"], "a", ".jpg"⟩ ∧
    (⟨["runs"], "a", ".jpg"⟩ : FsPath) ∈
      [(⟨["runs"], "a", ".jpg"⟩ : FsPath), ⟨["runs", "exp"], "a", ".jpg"⟩] ∧
    (⟨["runs", "exp"], "a", ".jpg"⟩ : FsPath) ≠ ⟨["runs"], "a", ".jpg"⟩ := by
  refine ⟨by decide, by decide, by decide⟩

/-- Claim C5 (amended): the resolver tries the annotation file's base name
with each extension of the fixed ordered list under the two directories
`runs_dir` and the grandparent `base_dir` — but the pair is iterated in an
unspecified order (Python set iteration) — then falls back to a recursive
search under `runs_dir`; it fails with `NotFoundError` exactly when no
candidate exists, and any returned path is a candidate. -/
theorem claim_C5_amended (order : Bool) (fs : List FsPath)
    (runs_dir : List String) (label_path : FsPath) :
    (find_image_for_label order fs runs_dir label_path = none ↔
      ¬ ∃ f, imageCandidate fs runs_dir label_path f) ∧
    (∀ p, find_image_for_label order fs runs_dir label_path = some p →
      imageCandidate fs runs_dir label_path p) := by
  rcases hd : dirSearch order fs runs_dir label_path with _ | p₀
  · have hfind : find_image_for_label order fs runs_dir label_path =
        rglobSearch fs runs_dir label_path := by
      unfold find_image_for_label
      rw [hd]
    rw [hfind]
    constructor
    · constructor
      · intro hnone
        rintro ⟨f, hfs, hstem, hext, hdirs⟩
        have hnodir := dirSearch_eq_none order fs runs_dir label_path hd
        have hnor := rglobSearch_eq_none fs runs_dir label_path hnone
        rcases hdirs with hruns | hbase | hunder
        · have : isUnder runs_dir f.dirs = false :=
            hnor f hfs hstem hext
          rw [hruns, isUnder_refl] at this
          cases this
        · have : (⟨baseDirOf runs_dir label_path, label_path.stem, f.ext⟩ :
              FsPath) ∉ fs :=
            hnodir _ (Or.inr rfl) f.ext hext
          apply this
          rw [← hbase, ← hstem]
          exact hfs
        · have := hnor f hfs hstem hext
          rw [hunder] at this
          cases this
      · intro hno
        rcases hr : rglobSearch fs runs_dir label_path with _ | p₁
        · rfl
        · exfalso
          obtain ⟨h1, h2, h3, h4⟩ :=
            rglobSearch_eq_some fs runs_dir label_path p₁ hr
          exact hno ⟨p₁, h1, h2, h3, Or.inr (Or.inr h4)⟩
    · intro p hp
      obtain ⟨h1, h2, h3, h4⟩ := rglobSearch_eq_some fs runs_dir label_path p hp
      exact ⟨h1, h2, h3, Or.inr (Or.inr h4)⟩
  · have hfind : find_image_for_label order fs runs_dir label_path = some p₀ := by
      unfold find_image_for_label
      rw [hd]
    rw [hfind]
    constructor
    · constructor
      · intro hnone
        cases hnone
      · intro hno
        exfalso
        obtain ⟨h1, h2, h3, h4⟩ :=
          dirSearch_eq_some order fs runs_dir label_path p₀ hd
        rcases h4 with h4 | h4
        · exact hno ⟨p₀, h1, h2, h3, Or.inl h4⟩
        · exact hno ⟨p₀, h1, h2, h3, Or.inr (Or.inl h4)⟩
    · intro p hp
      rw [Option.some_inj] at hp
      subst hp
      obtain ⟨h1, h2, h3, h4⟩ :=
        dirSearch_eq_some order fs runs_dir label_path p₀ hd
      rcases h4 with h4 | h4
      · exact ⟨h1, h2, h3, Or.inl h4⟩
      · exact ⟨h1, h2, h3, Or.inr (Or.inl h4)⟩

/-- Witness for the amended C5: on a one-file filesystem the resolver returns
that file and it is a candidate; on an empty filesystem it fails. -/
theorem claim_C5_witness :
    imageCandidate [(⟨["r"], "a", ".jpg"⟩ : FsPath)] ["r"]
      ⟨["r", "labels"], "a", ".txt"⟩ ⟨["r"], "a", ".jpg"⟩ ∧
    find_image_for_label true [] ["r"] ⟨["r", "labels"], "a", ".txt"⟩ = none :=
  ⟨(claim_C5_amended true [⟨["r"], "a", ".jpg"⟩] ["r"]
      ⟨["r", "labels"], "a", ".txt"⟩).2 ⟨["r"], "a", ".jpg"⟩ (by decide),
    (claim_C5_amended true [] ["r"] ⟨["r", "labels"], "a", ".txt"⟩).1.mpr
      (by rintro ⟨f, hf, _⟩; simp at hf)⟩

/-! ## Generic stable insertion sort

Used to model Python's stable `list.sort` and the descending
`sort_values` of the summary stage.  `sortCmp le` processes the list from
the right; an element is inserted before the first already-placed element
`b` with `le a b`, so equal elements keep their original relative order. -/

def insertCmp {α : Type _} (le : α → α → Bool) (a : α) : List α → List α
  | [] => [a]
  | b :: bs => if le a b then a :: b :: bs else b :: insertCmp le a bs

def sortCmp {α : Type _} (le : α → α → Bool) : List α → List α
  | [] => []
  | a :: as => insertCmp le a (sortCmp le as)

theorem insertCmp_perm {α : Type _} (le : α → α → Bool) (a : α) (l : List α) :
    (insertCmp le a l).Perm (a :: l) := by
  induction l with
  | nil => exact List.Perm.refl _
  | cons b bs ih =>
    unfold insertCmp
    split
    · exact List.Perm.refl _
    · exact (ih.cons b).trans (List.Perm.swap a b bs)

theorem sortCmp_perm {α : Type _} (le : α → α → Bool) (l : List α) :
    (sortCmp le l).Perm l := by
  induction l with
  | nil => exact List.Perm.refl _
  | cons a as ih => exact (insertCmp_perm le a (sortCmp le as)).trans (ih.cons a)

theorem mem_insertCmp {α : Type _} (le : α → α → Bool) (a x : α) (l : List α) :
    x ∈ insertCmp le a l ↔ x = a ∨ x ∈ l := by
  rw [(insertCmp_perm le a l).mem_iff]
  simp

theorem mem_sortCmp {α : Type _} (le : α → α → Bool) (x : α) (l : List α) :
    x ∈ sortCmp le l ↔ x ∈ l := (sortCmp_perm le l).mem_iff

/-- Stability invariant: inserting `x` (originally before every element of
`l`) into a list pairwise-ordered by
`S a b := le a b ∧ (le b a → R a b)` keeps that order, provided `x` is
`R`-before every element of `l`. -/
theorem insertCmp_pairwise {α : Type _} (le : α → α → Bool)
    (R : α → α → Prop) (htot : ∀ a b, le a b = true ∨ le b a = true)
    (htrans : ∀ a b c, le a b = true → le b c = true → le a c = true)
    (x : α) (l : List α)
    (hl : l.Pairwise (fun a b => le a b = true ∧ (le b a = true → R a b)))
    (hx : ∀ y ∈ l, R x y) :
    (insertCmp le x l).Pairwise
      (fun a b => le a b = true ∧ (le b a = true → R a b)) := by
  induction l with
  | nil => exact List.pairwise_singleton _ _
  | cons b bs ih =>
    unfold insertCmp
    split
    next hxb =>
      refine List.Pairwise.cons ?_ hl
      intro y hy
      rw [List.mem_cons] at hy
      rcases hy with rfl | hybs
      · exact ⟨hxb, fun _ => hx y (List.mem_cons_self _ _)⟩
      · rcases List.pairwise_cons.mp hl with ⟨hby, _⟩
        have hb := hby y hybs
        exact ⟨htrans x b y hxb hb.1,
          fun _ => hx y (List.mem_cons_of_mem _ hybs)⟩
    next hxb =>
      rcases List.pairwise_cons.mp hl with ⟨hby, hbs⟩
      refine List.Pairwise.cons ?_
        (ih hbs (fun y hy => hx y (List.mem_cons_of_mem _ hy)))
      intro y hy
      rw [mem_insertCmp] at hy
      rcases hy with rfl | hybs
      · have hbx : le b y = true := by
          rcases htot y b with h | h
          · exact absurd h hxb
          · exact h
        exact ⟨hbx, fun hyb => absurd hyb hxb⟩
      · exact hby y hybs

/-- A list whose elements are pairwise `R`-ordered sorts, under a total and
transitive comparator, into a list pairwise-ordered by the comparator with
ties still `R`-ordered (stability). -/
theorem sortCmp_pairwise {α : Type _} (le : α → α → Bool)
    (R : α → α → Prop) (htot : ∀ a b, le a b = true ∨ le b a = true)
    (htrans : ∀ a b c, le a b = true → le b c = true → le a c = true)
    (l : List α) (hl : l.Pairwise R) :
    (sortCmp le l).Pairwise
      (fun a b => le a b = true ∧ (le b a = true → R a b)) := by
  induction l with
  | nil => exact List.Pairwise.nil
  | cons a as ih =>
    rcases List.pairwise_cons.mp hl with ⟨hay, has⟩
    exact insertCmp_pairwise le R htot htrans a (sortCmp le as) (ih has)
      (fun y hy => hay y ((mem_sortCmp le y as).mp hy))

/-! ## `refine_detections.py`: detections, filter predicate, refinement -/

/-- A detection dictionary as read back from the exported JSON, with the
fields `detection_passes` and the summary stage access via `.get`: a missing
key reads as `none`. -/
structure Det where
  class_id : Option ℤ
  class_name : Option String
  confidence : Option ℚ
deriving DecidableEq

/-- `float(conf) if conf is not None else 0.0` (and, where the code uses
`det.get("confidence") or 0.0`, the value coincides: `0.0 or 0.0` is
`0.0`). -/
def confValue (d : Det) : ℚ := d.confidence.getD 0

/-- An image record dictionary as read from JSON input. -/
structure Record where
  image : Option String
  image_path : Option String
  width : Option ℤ
  height : Option ℤ
  detections : List Det
deriving DecidableEq

/-- The `meta` block attached by `refine_records`. -/
structure Meta where
  num_detections : ℕ
  num_original : ℕ
  min_conf_applied : ℚ
  class_filter : Option (List String)
deriving DecidableEq

/-- An output record of `refine_records`. -/
structure RefinedRecord where
  image : Option String
  image_path : Option String
  width : Option ℤ
  height : Option ℤ
  detections : List Det
  meta : Meta
deriving DecidableEq

/-- `isinstance(class_id, int) and class_id in allowed_ids`: the field is
present and its value belongs to the id-set. -/
def idMatchB (cid : Option ℤ) (allowed_ids : List ℤ) : Bool :=
  match cid with
  | some i => allowed_ids.contains i
  | none => false

/-- Python's `str.lower`, character-wise over the string's characters
(ASCII case mapping, as `Char.toLower` performs). -/
def pyLower (s : String) : String := String.mk (s.data.map Char.toLower)

/-- `isinstance(class_name, str) and class_name.lower() in allowed_names`:
the field is present and its lower-cased value belongs to the name-set. -/
def nameMatchB (cname : Option String) (allowed_names : List String) : Bool :=
  match cname with
  | some s => allowed_names.contains (pyLower s)
  | none => false

/-- `detection_passes` from `refine_detections.py`.  The Python id-set and
(lower-cased) name-set are modelled as lists whose membership is what
matters. -/
def detection_passes (d : Det) (min_conf : ℚ)
    (allowed_ids : List ℤ) (allowed_names : List String) : Bool :=
  if confValue d < min_conf then false
  else if allowed_ids.isEmpty && allowed_names.isEmpty then true
  else if !allowed_ids.isEmpty && idMatchB d.class_id allowed_ids then true
  else if !allowed_names.isEmpty && nameMatchB d.class_name allowed_names
    then true
  else false

/-- Character comparison by code point, modelling Python string `<`
(code-point lexicographic). -/
def charLtB (a b : Char) : Bool := decide (a < b)

def strDataLtB : List Char → List Char → Bool
  | [], [] => false
  | [], _ :: _ => true
  | _ :: _, [] => false
  | a :: as, b :: bs => if a = b then strDataLtB as bs else charLtB a b

def strLtB (a b : String) : Bool := strDataLtB a.data b.data

def strLeB (a b : String) : Bool := a == b || strLtB a b

/-- `sorted` on a Python list of strings. -/
def sortedStrings (l : List String) : List String := sortCmp strLeB l

/-- `sorted` on a Python set of integers (sets are deduplicated). -/
def sortedInts (l : List ℤ) : List ℤ := sortCmp (fun a b => a ≤ b) l.dedup

/-- The detection sort of `refine_records` under `--sort-desc`:
`filtered.sort(key=..., reverse=True)` — Python's stable sort, descending by
`float(d.get("confidence") or 0.0)`. -/
def sortDetsDesc (l : List Det) : List Det :=
  sortCmp (fun a b => confValue b ≤ confValue a) l

/-- The per-record `filtered` list of `refine_records`: the detections that
pass the predicate, sorted descending by confidence when `sort_desc`. -/
def filteredDets (min_conf : ℚ) (allowed_ids : List ℤ)
    (allowed_names : List String) (sort_desc : Bool) (record : Record) :
    List Det :=
  if sort_desc then
    sortDetsDesc (record.detections.filter
      (fun d => detection_passes d min_conf allowed_ids allowed_names))
  else
    record.detections.filter
      (fun d => detection_passes d min_conf allowed_ids allowed_names)

/-- The optional `class_filter` metadata entry:
`sorted([*map(str, sorted(allowed_ids)), *sorted(allowed_names)])` when
either filter set is non-empty. -/
def classFilterMeta (allowed_ids : List ℤ) (allowed_names : List String) :
    Option (List String) :=
  if !allowed_ids.isEmpty || !allowed_names.isEmpty
    then some (sortedStrings
      ((sortedInts allowed_ids).map toString ++
        sortedStrings allowed_names.dedup))
    else none

/-- The per-record body of the loop of `refine_records`: `none` when the
record is dropped (`drop_empty` and no surviving detection). -/
def refineRecord (min_conf : ℚ) (allowed_ids : List ℤ)
    (allowed_names : List String) (drop_empty sort_desc : Bool)
    (record : Record) : Option RefinedRecord :=
  if drop_empty &&
      (filteredDets min_conf allowed_ids allowed_names sort_desc
        record).isEmpty then none
  else some
    { image := record.image
      image_path := record.image_path
      width := record.width
      height := record.height
      detections := filteredDets min_conf allowed_ids allowed_names
        sort_desc record
      meta :=
        { num_detections := (filteredDets min_conf allowed_ids allowed_names
            sort_desc record).length
          num_original := record.detections.length
          min_conf_applied := min_conf
          class_filter := classFilterMeta allowed_ids allowed_names } }

/-- `refine_records` from `refine_detections.py`. -/
def refine_records (records : List Record) (min_conf : ℚ)
    (allowed_ids : List ℤ) (allowed_names : List String)
    (drop_empty sort_desc : Bool) : List RefinedRecord :=
  records.filterMap
    (refineRecord min_conf allowed_ids allowed_names drop_empty sort_desc)

theorem le_conf_of_passes (d : Det) (min_conf : ℚ) (ids : List ℤ)
    (names : List String)
    (h : detection_passes d min_conf ids names = true) :
    min_conf ≤ confValue d := by
  unfold detection_passes at h
  by_cases hlt : confValue d < min_conf
  · rw [if_pos hlt] at h
    cases h
  · exact le_of_not_lt hlt

theorem refineRecord_detections (min_conf : ℚ) (ids : List ℤ)
    (names : List String) (de sd : Bool) (record : Record)
    (r : RefinedRecord)
    (h : refineRecord min_conf ids names de sd record = some r) :
    r.detections = filteredDets min_conf ids names sd record := by
  unfold refineRecord at h
  split at h
  · cases h
  · rw [Option.some_inj] at h
    rw [← h]

theorem mem_filteredDets (min_conf : ℚ) (ids : List ℤ)
    (names : List String) (sd : Bool) (record : Record) (d : Det)
    (h : d ∈ filteredDets min_conf ids names sd record) :
    d ∈ record.detections ∧ detection_passes d min_conf ids names = true := by
  unfold filteredDets at h
  cases sd with
  | false =>
    rw [if_neg (by simp)] at h
    exact List.mem_filter.mp h
  | true =>
    rw [if_pos rfl] at h
    unfold sortDetsDesc at h
    rw [mem_sortCmp] at h
    exact List.mem_filter.mp h

/-! ## Claim C6: surviving detections meet the threshold -/

/-- Claim C6: for every threshold `t` and any input records and filter
configuration, every detection surviving `refine_records` with
`min_conf = t` has confidence at least `t` (a missing confidence reads as
`0.0`). -/
theorem claim_C6_min_conf (t : ℚ) (records : List Record) (ids : List ℤ)
    (names : List String) (de sd : Bool) (r : RefinedRecord) (d : Det)
    (hr : r ∈ refine_records records t ids names de sd)
    (hd : d ∈ r.detections) : t ≤ confValue d := by
  unfold refine_records at hr
  rw [List.mem_filterMap] at hr
  obtain ⟨record, _, heq⟩ := hr
  rw [refineRecord_detections t ids names de sd record r heq] at hd
  exact le_conf_of_passes d t ids names
    (mem_filteredDets t ids names sd record d hd).2

/-- A sample detection used by witnesses. -/
def sampleDet : Det := ⟨some 0, some "cat", some (7/10)⟩

/-- A sample input record used by witnesses. -/
def sampleRecord : Record :=
  { image := some "i"
    image_path := none
    width := some 10
    height := some 10
    detections := [sampleDet] }

/-- The refined record produced from `sampleRecord` at threshold `1/2` with
no class filters. -/
def sampleRefined : RefinedRecord :=
  { image := some "i"
    image_path := none
    width := some 10
    height := some 10
    detections := [sampleDet]
    meta :=
      { num_detections := 1
        num_original := 1
        min_conf_applied := 1/2
        class_filter := none } }

/-- Witness for C6: one record with a surviving detection of confidence
`7/10 ≥ 1/2`. -/
theorem claim_C6_witness : (1/2 : ℚ) ≤ confValue sampleDet := by
  have hr : sampleRefined ∈
      refine_records [sampleRecord] (1/2) [] [] false false := by
    unfold refine_records refineRecord filteredDets detection_passes confValue
      classFilterMeta sampleRecord sampleRefined sampleDet
    norm_num
  exact claim_C6_min_conf (1/2) [sampleRecord] [] [] false false
    sampleRefined sampleDet hr (by simp [sampleRefined])

/-! ## Claim C7: OR-semantics of the class filter -/

/-- Claim C7: `detection_passes` holds exactly when the confidence (`0.0`
when absent) is at least `min_conf` AND (both filter sets are empty, OR the
detection's `class_id` is in the id-set, OR its lower-cased `class_name` is
in the name-set).  In particular a detection matching only the id-set
passes with no name match, and vice versa. -/
theorem claim_C7_or_semantics (d : Det) (min_conf : ℚ) (ids : List ℤ)
    (names : List String) :
    detection_passes d min_conf ids names = true ↔
      (min_conf ≤ confValue d ∧
        ((ids = [] ∧ names = []) ∨
          (∃ i, d.class_id = some i ∧ i ∈ ids) ∨
          (∃ s, d.class_name = some s ∧ pyLower s ∈ names))) := by
  obtain ⟨cid, cname, conf⟩ := d
  unfold detection_passes
  dsimp only
  by_cases hlt : confValue ⟨cid, cname, conf⟩ < min_conf
  · rw [if_pos hlt]
    refine iff_of_false (by simp) ?_
    rintro ⟨hle, -⟩
    exact absurd hle (not_le.mpr hlt)
  · rw [if_neg hlt]
    have hle : min_conf ≤ confValue ⟨cid, cname, conf⟩ := le_of_not_lt hlt
    by_cases hempty : (ids.isEmpty && names.isEmpty) = true
    · rw [if_pos hempty]
      rw [Bool.and_eq_true, List.isEmpty_iff, List.isEmpty_iff] at hempty
      exact iff_of_true rfl ⟨hle, Or.inl hempty⟩
    · rw [if_neg hempty]
      by_cases h2 : (!ids.isEmpty && idMatchB cid ids) = true
      · rw [if_pos h2]
        rw [Bool.and_eq_true] at h2
        obtain ⟨-, h2m⟩ := h2
        cases cid with
        | none => cases h2m
        | some i =>
          rw [idMatchB] at h2m
          exact iff_of_true rfl
            ⟨hle, Or.inr (Or.inl ⟨i, rfl, by simpa using h2m⟩)⟩
      · rw [if_neg h2]
        by_cases h3 : (!names.isEmpty && nameMatchB cname names) = true
        · rw [if_pos h3]
          rw [Bool.and_eq_true] at h3
          obtain ⟨-, h3m⟩ := h3
          cases cname with
          | none => cases h3m
          | some s =>
            rw [nameMatchB] at h3m
            exact iff_of_true rfl
              ⟨hle, Or.inr (Or.inr ⟨s, rfl, by simpa using h3m⟩)⟩
        · rw [if_neg h3]
          refine iff_of_false (by simp) ?_
          rintro ⟨-, hcase⟩
          rcases hcase with ⟨hids, hnames⟩ | ⟨i, hi, himem⟩ | ⟨s, hs, hsmem⟩
          · apply hempty
            rw [hids, hnames]
            rfl
          · apply h2
            subst hi
            rw [Bool.and_eq_true]
            constructor
            · rcases ids with _ | ⟨a, as⟩
              · cases himem
              · rfl
            · rw [idMatchB]
              simpa using himem
          · apply h3
            subst hs
            rw [Bool.and_eq_true]
            constructor
            · rcases names with _ | ⟨a, as⟩
              · cases hsmem
              · rfl
            · rw [nameMatchB]
              simpa using hsmem

/-! ## Order lemmas for the string comparator -/

theorem strDataLtB_irrefl : ∀ as : List Char, strDataLtB as as = false := by
  intro as
  induction as with
  | nil => rfl
  | cons a as ih =>
    unfold strDataLtB
    rw [if_pos rfl]
    exact ih

theorem strDataLtB_trans :
    ∀ as bs cs : List Char, strDataLtB as bs = true →
      strDataLtB bs cs = true → strDataLtB as cs = true := by
  intro as
  induction as with
  | nil =>
    intro bs cs h1 h2
    cases bs with
    | nil => cases h1
    | cons b bs' =>
      cases cs with
      | nil => cases h2
      | cons c cs' => rfl
  | cons a as' ih =>
    intro bs cs h1 h2
    cases bs with
    | nil => cases h1
    | cons b bs' =>
      cases cs with
      | nil => cases h2
      | cons c cs' =>
        unfold strDataLtB at h1 h2 ⊢
        by_cases hab : a = b
        · rw [if_pos hab] at h1
          by_cases hbc : b = c
          · rw [if_pos hbc] at h2
            rw [if_pos (hab.trans hbc)]
            exact ih bs' cs' h1 h2
          · rw [if_neg hbc] at h2
            unfold charLtB at h2 ⊢
            rw [decide_eq_true_iff] at h2
            subst hab
            rw [if_neg hbc, decide_eq_true_iff]
            exact h2
        · rw [if_neg hab] at h1
          unfold charLtB at h1 ⊢
          rw [decide_eq_true_iff] at h1
          by_cases hbc : b = c
          · subst hbc
            rw [if_neg hab, decide_eq_true_iff]
            exact h1
          · rw [if_neg hbc] at h2
            unfold charLtB at h2
            rw [decide_eq_true_iff] at h2
            have hac : a < c := lt_trans h1 h2
            have hne : ¬ (a = c) := by
              intro h
              rw [h] at h1
              exact absurd h2 (lt_asymm h1)
            rw [if_neg hne, decide_eq_true_iff]
            exact hac

theorem strDataLtB_trichotomy :
    ∀ as bs : List Char, as = bs ∨ strDataLtB as bs = true ∨
      strDataLtB bs as = true := by
  intro as
  induction as with
  | nil =>
    intro bs
    cases bs with
    | nil => exact Or.inl rfl
    | cons b bs' => exact Or.inr (Or.inl rfl)
  | cons a as' ih =>
    intro bs
    cases bs with
    | nil => exact Or.inr (Or.inr rfl)
    | cons b bs' =>
      by_cases hab : a = b
      · subst hab
        rcases ih bs' with h | h | h
        · exact Or.inl (by rw [h])
        · refine Or.inr (Or.inl ?_)
          unfold strDataLtB
          rw [if_pos rfl]
          exact h
        · refine Or.inr (Or.inr ?_)
          unfold strDataLtB
          rw [if_pos rfl]
          exact h
      · rcases lt_trichotomy a b with h | h | h
        · refine Or.inr (Or.inl ?_)
          unfold strDataLtB
          rw [if_neg hab]
          unfold charLtB
          rw [decide_eq_true_iff]
          exact h
        · exact absurd h hab
        · refine Or.inr (Or.inr ?_)
          unfold strDataLtB
          rw [if_neg (fun hba => hab hba.symm)]
          unfold charLtB
          rw [decide_eq_true_iff]
          exact h

theorem strLtB_irrefl (s : String) : strLtB s s = false :=
  strDataLtB_irrefl s.data

theorem strLtB_trans (a b c : String) (h1 : strLtB a b = true)
    (h2 : strLtB b c = true) : strLtB a c = true :=
  strDataLtB_trans a.data b.data c.data h1 h2

theorem strLtB_trichotomy (a b : String) :
    a = b ∨ strLtB a b = true ∨ strLtB b a = true := by
  rcases strDataLtB_trichotomy a.data b.data with h | h | h
  · refine Or.inl ?_
    cases a
    cases b
    exact congrArg String.mk (by simpa using h)
  · exact Or.inr (Or.inl h)
  · exact Or.inr (Or.inr h)

theorem strLtB_asymm (a b : String) (h1 : strLtB a b = true) :
    strLtB b a = false := by
  cases h2 : strLtB b a
  · rfl
  · have := strLtB_trans a b a h1 h2
    rw [strLtB_irrefl] at this
    cases this

/-! ## `detection_summary.py`: rows, grouping, summary -/

/-- One flattened row of `build_dataframe`. -/
structure Row where
  image : Option String
  class_id : Option ℤ
  class_name : Option String
  confidence : ℚ
deriving DecidableEq

/-- The flattening loop of `build_dataframe`: one row per detection across
all records, in record order then detection order, with confidence read as
`float(det.get("confidence") or 0.0)`. -/
def build_rows (records : List Record) : List Row :=
  records.flatMap (fun record =>
    record.detections.map (fun det =>
      { image := record.image
        class_id := det.class_id
        class_name := det.class_name
        confidence := confValue det }))

/-- One textual rendering of a class id inside
`f"class_{row['class_id']}"`: a present id in integer form, a missing one
as `None`.  In pandas the literal text depends on the dtype the `class_id`
column was inferred with: all ids present → int64 (`class_1`); some
present, some missing → float64 (`class_1.0`, `class_nan`); all missing →
object (`class_None`).  The summary theorems therefore take the rendering
as a parameter (`classDisplayWith`, `rowKeyWith`); this fixed instance is
used only for concrete evaluation and for detection counts, which are
invariant under the keying function.  (float64 rendering of ids beyond
2^53 would lose precision; that corner is outside this integer-exact
model.) -/
def pyStrOptInt : Option ℤ → String
  | none => "None"
  | some n => toString n

/-- The `class_display` lambda of `summarise`:
`row["class_name"] if row["class_name"] else f"class_{row['class_id']}"`
(a missing *or empty* name is falsy), over an arbitrary rendering `rnd` of
the id. -/
def classDisplayWith (rnd : Option ℤ → String) (cname : Option String)
    (cid : Option ℤ) : String :=
  match cname with
  | some s => if s = "" then "class_" ++ rnd cid else s
  | none => "class_" ++ rnd cid

/-- The groupby key of `summarise`: the pair `(class_display, class_id)`,
over an arbitrary id rendering. -/
def rowKeyWith (rnd : Option ℤ → String) (r : Row) : String × Option ℤ :=
  (classDisplayWith rnd r.class_name r.class_id, r.class_id)

/-- The executable instance of `rowKeyWith`. -/
def rowKey (r : Row) : String × Option ℤ := rowKeyWith pyStrOptInt r

/-- `Option ℤ` ordered with `none` (a missing id, NaN in pandas) last, the
placement pandas gives NaN keys when sorting groups. -/
def optIntLeB : Option ℤ → Option ℤ → Bool
  | _, none => true
  | none, some _ => false
  | some a, some b => a ≤ b

/-- Ascending lexicographic order on group keys `(class_display, class_id)`:
`groupby` (with its default `sort=True`) arranges groups in this order. -/
def keyLeB (a b : String × Option ℤ) : Bool :=
  if a.1 = b.1 then optIntLeB a.2 b.2 else strLtB a.1 b.1

theorem optIntLeB_refl (a : Option ℤ) : optIntLeB a a = true := by
  cases a <;> simp [optIntLeB]

theorem optIntLeB_total (a b : Option ℤ) :
    optIntLeB a b = true ∨ optIntLeB b a = true := by
  cases a <;> cases b <;> simp [optIntLeB]
  omega

theorem optIntLeB_trans (a b c : Option ℤ) (h1 : optIntLeB a b = true)
    (h2 : optIntLeB b c = true) : optIntLeB a c = true := by
  cases a <;> cases b <;> cases c <;> simp_all [optIntLeB]
  omega

theorem keyLeB_refl (a : String × Option ℤ) : keyLeB a a = true := by
  unfold keyLeB
  rw [if_pos rfl]
  exact optIntLeB_refl a.2

theorem keyLeB_total (a b : String × Option ℤ) :
    keyLeB a b = true ∨ keyLeB b a = true := by
  unfold keyLeB
  by_cases h : a.1 = b.1
  · rw [if_pos h, if_pos h.symm]
    exact optIntLeB_total a.2 b.2
  · rw [if_neg h, if_neg (fun hba => h hba.symm)]
    rcases strLtB_trichotomy a.1 b.1 with heq | hlt | hgt
    · exact absurd heq h
    · exact Or.inl hlt
    · exact Or.inr hgt

theorem keyLeB_trans (a b c : String × Option ℤ) (h1 : keyLeB a b = true)
    (h2 : keyLeB b c = true) : keyLeB a c = true := by
  unfold keyLeB at h1 h2 ⊢
  by_cases hab : a.1 = b.1
  · rw [if_pos hab] at h1
    by_cases hbc : b.1 = c.1
    · rw [if_pos hbc] at h2
      rw [if_pos (hab.trans hbc)]
      exact optIntLeB_trans a.2 b.2 c.2 h1 h2
    · rw [if_neg hbc] at h2
      rw [if_neg (fun h => hbc (hab.symm.trans h)), hab]
      exact h2
  · rw [if_neg hab] at h1
    by_cases hbc : b.1 = c.1
    · rw [if_neg (fun h => hab (h.trans hbc.symm)), ← hbc]
      exact h1
    · rw [if_neg hbc] at h2
      have hlt := strLtB_trans a.1 b.1 c.1 h1 h2
      have hne : ¬ (a.1 = c.1) := by
        intro h
        rw [h] at hlt
        rw [strLtB_irrefl] at hlt
        cases hlt
      rw [if_neg hne]
      exact hlt

/-! ## First-encountered deduplication -/

/-- The distinct elements of a list, keeping the first occurrence of each,
in first-encountered order. -/
def dedupFirst {α : Type _} [DecidableEq α] : List α → List α
  | [] => []
  | a :: as => a :: dedupFirst (as.filter (fun x => x ≠ a))
termination_by l => l.length
decreasing_by
  simp only [List.length_cons]
  exact Nat.lt_succ_of_le (List.length_filter_le _ _)

theorem mem_dedupFirst_aux {α : Type _} [DecidableEq α] :
    ∀ (n : ℕ) (l : List α), l.length ≤ n →
      ∀ x : α, x ∈ dedupFirst l ↔ x ∈ l := by
  intro n
  induction n with
  | zero =>
    intro l hl x
    cases l with
    | nil => rw [dedupFirst]
    | cons a as => simp at hl
  | succ n ihn =>
    intro l hl x
    cases l with
    | nil => rw [dedupFirst]
    | cons a as =>
      rw [dedupFirst]
      have hlen : (as.filter (fun x => x ≠ a)).length ≤ n :=
        le_trans (List.length_filter_le _ _)
          (Nat.succ_le_succ_iff.mp (by simpa using hl))
      rw [List.mem_cons, List.mem_cons,
        ihn (as.filter (fun x => x ≠ a)) hlen x, List.mem_filter]
      by_cases hxa : x = a
      · subst hxa
        simp
      · simp [hxa]

theorem mem_dedupFirst {α : Type _} [DecidableEq α] (l : List α) (x : α) :
    x ∈ dedupFirst l ↔ x ∈ l :=
  mem_dedupFirst_aux l.length l le_rfl x

theorem nodup_dedupFirst_aux {α : Type _} [DecidableEq α] :
    ∀ (n : ℕ) (l : List α), l.length ≤ n → (dedupFirst l).Nodup := by
  intro n
  induction n with
  | zero =>
    intro l hl
    cases l with
    | nil =>
      rw [dedupFirst]
      exact List.nodup_nil
    | cons a as => simp at hl
  | succ n ihn =>
    intro l hl
    cases l with
    | nil =>
      rw [dedupFirst]
      exact List.nodup_nil
    | cons a as =>
      rw [dedupFirst]
      have hlen : (as.filter (fun x => x ≠ a)).length ≤ n :=
        le_trans (List.length_filter_le _ _)
          (Nat.succ_le_succ_iff.mp (by simpa using hl))
      refine List.Nodup.cons ?_ (ihn _ hlen)
      intro hmem
      rw [mem_dedupFirst, List.mem_filter] at hmem
      simp at hmem

theorem nodup_dedupFirst {α : Type _} [DecidableEq α] (l : List α) :
    (dedupFirst l).Nodup :=
  nodup_dedupFirst_aux l.length l le_rfl

/-! ## The summary table -/

/-- One row of the summary table. -/
structure SummaryRow where
  class_display : String
  class_id : Option ℤ
  num_detections : ℕ
  mean_confidence : ℚ
  max_confidence : ℚ
deriving DecidableEq

/-- The admissible values of `--sort-by`. -/
inductive SortKey where
  | num_detections
  | mean_confidence
  | max_confidence
deriving DecidableEq

/-- The column a `SortKey` reads from a `SummaryRow` (counts compared as
rationals). -/
def metric : SortKey → SummaryRow → ℚ
  | SortKey.num_detections, s => (s.num_detections : ℚ)
  | SortKey.mean_confidence, s => s.mean_confidence
  | SortKey.max_confidence, s => s.max_confidence

/-- The `agg` step of `summarise` for one group: size, arithmetic mean and
maximum of `confidence` over the rows whose key equals `k`. -/
def groupStatsWith (rnd : Option ℤ → String) (rows : List Row)
    (k : String × Option ℤ) : SummaryRow :=
  { class_display := k.1
    class_id := k.2
    num_detections := (rows.filter (fun r => rowKeyWith rnd r = k)).length
    mean_confidence :=
      ((rows.filter (fun r => rowKeyWith rnd r = k)).map
        (fun r => r.confidence)).sum /
        ((rows.filter (fun r => rowKeyWith rnd r = k)).length : ℚ)
    max_confidence :=
      match (rows.filter (fun r => rowKeyWith rnd r = k)).map
          (fun r => r.confidence) with
      | [] => 0
      | c :: cs => cs.foldl max c }

/-- The contract numpy documents for the
`sort_values(by, ascending=False)` call of `summarise` with its default
`kind='quicksort'`: the output is a permutation of the input,
non-increasing in the requested column.  Stability is *not* part of the
contract — introsort may reorder tied rows — so nothing more is assumed of
the implementation. -/
def IsSortValuesDesc
    (srt : (SummaryRow → ℚ) → List SummaryRow → List SummaryRow) : Prop :=
  ∀ (m : SummaryRow → ℚ) (l : List SummaryRow),
    (srt m l).Perm l ∧ (srt m l).Pairwise (fun a b => m b ≤ m a)

/-- One realizable `sort_values` implementation: a stable descending sort
(the behavior of numpy's small-array insertion-sort path). -/
def sortValuesStable (m : SummaryRow → ℚ) (l : List SummaryRow) :
    List SummaryRow :=
  sortCmp (fun a b => m b ≤ m a) l

/-- `summarise` from `detection_summary.py` composed with
`build_dataframe`, with its two implementation-dependent pieces abstracted
as parameters: `srt`, the `sort_values` step (constrained only by
`IsSortValuesDesc`, since numpy's default quicksort leaves the relative
order of tied rows unspecified), and `rnd`, the dtype-dependent textual
rendering of a class id in `class_{...}`.  An empty frame yields an empty
table; otherwise the groups — the distinct keys, arranged ascending by key
as `groupby` does with its default `sort=True` — are aggregated and the
table is sorted by the requested column descending. -/
def summariseWith
    (srt : (SummaryRow → ℚ) → List SummaryRow → List SummaryRow)
    (rnd : Option ℤ → String) (records : List Record) (sort_by : SortKey) :
    List SummaryRow :=
  if (build_rows records).isEmpty then []
  else
    srt (metric sort_by)
      ((sortCmp keyLeB
          (dedupFirst ((build_rows records).map (rowKeyWith rnd)))).map
        (groupStatsWith rnd (build_rows records)))

/-- The executable instance of the summary pipeline: the stable
`sort_values` realization and the integer id rendering.  Used for concrete
evaluation, and by claim C8, whose conclusion is invariant under both
choices (its proof uses only that the sort is a permutation and that any
keying function partitions the rows). -/
def summarise (records : List Record) (sort_by : SortKey) : List SummaryRow :=
  summariseWith sortValuesStable pyStrOptInt records sort_by

/-! ## Counting: groups partition the rows -/

theorem sum_filter_length_eq {α κ : Type _} [DecidableEq κ] (f : α → κ) :
    ∀ (ks : List κ) (l : List α), ks.Nodup → (∀ x ∈ l, f x ∈ ks) →
      (ks.map (fun k => (l.filter (fun x => f x = k)).length)).sum =
        l.length := by
  intro ks
  induction ks with
  | nil =>
    intro l _ hmem
    cases l with
    | nil => rfl
    | cons x xs =>
      exact absurd (hmem x (List.mem_cons_self _ _)) (List.not_mem_nil _)
  | cons k ks' ih =>
    intro l hnd hmem
    rw [List.map_cons, List.sum_cons]
    have hknotin := (List.nodup_cons.mp hnd).1
    have hrw : ks'.map (fun k' => (l.filter (fun x => f x = k')).length) =
        ks'.map (fun k' =>
          ((l.filter (fun x => ! decide (f x = k))).filter
            (fun x => f x = k')).length) := by
      apply List.map_eq_map_iff.mpr
      intro k' hk'
      rw [List.filter_filter]
      congr 1
      apply List.filter_congr
      intro x hx
      by_cases hfx : f x = k'
      · subst hfx
        have hne : ¬ (f x = k) := by
          intro he
          exact hknotin (he ▸ hk')
        simp [hne]
      · simp [hfx]
    rw [hrw]
    have hnodup' := (List.nodup_cons.mp hnd).2
    have hmem' : ∀ x ∈ l.filter (fun x => ! decide (f x = k)), f x ∈ ks' := by
      intro x hx
      rw [List.mem_filter] at hx
      have hin := hmem x hx.1
      rw [List.mem_cons] at hin
      rcases hin with he | hm
      · exfalso
        have := hx.2
        simp [he] at this
      · exact hm
    rw [ih _ hnodup' hmem']
    exact (List.length_eq_length_filter_add _).symm

/-! ## Claim C8: summary counts add up to the total -/

/-- Claim C8: for every input record sequence (and either sort key), the sum
of `num_detections` over all rows of the summary equals the total number of
detections across all input records. -/
theorem claim_C8_total_count (records : List Record) (k : SortKey) :
    ((summarise records k).map (fun s => s.num_detections)).sum =
      (records.map (fun r => r.detections.length)).sum := by
  have hlen : (build_rows records).length =
      (records.map (fun r => r.detections.length)).sum := by
    unfold build_rows
    induction records with
    | nil => rfl
    | cons r rs ih => simp [List.flatMap_cons, ih]
  unfold summarise summariseWith sortValuesStable
  by_cases h : (build_rows records).isEmpty
  · rw [if_pos h]
    rw [List.isEmpty_iff] at h
    rw [← hlen, h]
    rfl
  · rw [if_neg h]
    have hp1 := sortCmp_perm (fun a b => metric k b ≤ metric k a)
      ((sortCmp keyLeB
          (dedupFirst
            ((build_rows records).map (rowKeyWith pyStrOptInt)))).map
        (groupStatsWith pyStrOptInt (build_rows records)))
    rw [(hp1.map (fun s => s.num_detections)).sum_eq, List.map_map]
    have hp2 := sortCmp_perm keyLeB
      (dedupFirst ((build_rows records).map (rowKeyWith pyStrOptInt)))
    have hcomp : ((fun s => s.num_detections) ∘
        groupStatsWith pyStrOptInt (build_rows records)) = (fun k' =>
          ((build_rows records).filter
            (fun r => rowKeyWith pyStrOptInt r = k')).length) :=
      rfl
    rw [hcomp, (hp2.map (fun k' =>
      ((build_rows records).filter
        (fun r => rowKeyWith pyStrOptInt r = k')).length)).sum_eq]
    rw [sum_filter_length_eq (rowKeyWith pyStrOptInt) _ _
      (nodup_dedupFirst
        ((build_rows records).map (rowKeyWith pyStrOptInt)))
      (fun x hx => (mem_dedupFirst _ _).mpr
        (List.mem_map_of_mem (rowKeyWith pyStrOptInt) hx))]
    exact hlen

/-- Witness exercising C7 at concrete inputs: a detection matching only the
id-set passes, and one matching only the name-set passes. -/
theorem claim_C7_witness :
    detection_passes ⟨some 2, some "cat", some 1⟩ 0 [2] ["dog"] = true ∧
    detection_passes ⟨some 5, some "dog", some 1⟩ 0 [9] ["dog"] = true :=
  ⟨(claim_C7_or_semantics ⟨some 2, some "cat", some 1⟩ 0 [2] ["dog"]).mpr
      ⟨by norm_num [confValue], Or.inr (Or.inl ⟨2, rfl, by decide⟩)⟩,
   (claim_C7_or_semantics ⟨some 5, some "dog", some 1⟩ 0 [9] ["dog"]).mpr
      ⟨by norm_num [confValue], Or.inr (Or.inr ⟨"dog", rfl, by decide⟩)⟩⟩

/-! ## Claim C2: group order of the summary -/

/-- The group identity of a produced `SummaryRow`. -/
def toKey (s : SummaryRow) : String × Option ℤ := (s.class_display, s.class_id)

theorem colLeB_total (m : SummaryRow → ℚ) (a b : SummaryRow) :
    decide (m b ≤ m a) = true ∨ decide (m a ≤ m b) = true := by
  rw [decide_eq_true_iff, decide_eq_true_iff]
  exact le_total (m b) (m a)

theorem colLeB_trans (m : SummaryRow → ℚ) (a b c : SummaryRow)
    (h1 : decide (m b ≤ m a) = true) (h2 : decide (m c ≤ m b) = true) :
    decide (m c ≤ m a) = true := by
  rw [decide_eq_true_iff] at h1 h2 ⊢
  exact le_trans h2 h1

theorem pairwise_trivial {α : Type _} (l : List α) :
    l.Pairwise (fun _ _ => True) := by
  induction l with
  | nil => exact List.Pairwise.nil
  | cons a as ih => exact List.Pairwise.cons (fun _ _ => trivial) ih

/-- The stable realization meets numpy's `sort_values` contract. -/
theorem sortValuesStable_spec : IsSortValuesDesc sortValuesStable := by
  intro m l
  refine ⟨sortCmp_perm _ _, ?_⟩
  have h := sortCmp_pairwise (fun a b => m b ≤ m a) (fun _ _ => True)
    (colLeB_total m) (colLeB_trans m) l (pairwise_trivial l)
  refine h.imp ?_
  intro a b hab
  have h1 := hab.1
  rwa [decide_eq_true_iff] at h1

/-- A sample record for the claim C2 counterexample: two detections, first
encountered class `zebra` (id 1), then class `ant` (id 0), both with
confidence 1. -/
def recC2 : Record :=
  { image := some "img"
    image_path := none
    width := some 100
    height := some 100
    detections :=
      [⟨some 1, some "zebra", some 1⟩, ⟨some 0, some "ant", some 1⟩] }

/-- Claim C2 counterexample: the two classes above tie at mean confidence
1 and were first encountered in the order `zebra`, `ant`; yet under a
realizable run of the pipeline — the stable `sort_values` realization,
which satisfies numpy's contract and is what the small-array
insertion-sort path (hence real pandas on this frame) produces — the
summary lists `ant` before `zebra`, because `groupby(sort=True)` pre-sorts
the groups ascending by key.  Ties are therefore *not* broken by
first-encountered order. -/
theorem claim_C2_counterexample :
    IsSortValuesDesc sortValuesStable ∧
    (summariseWith sortValuesStable pyStrOptInt [recC2]
        SortKey.mean_confidence).map
      (fun s => s.class_display) = ["ant", "zebra"] ∧
    (summariseWith sortValuesStable pyStrOptInt [recC2]
        SortKey.mean_confidence).map
      (fun s => s.mean_confidence) = [1, 1] ∧
    dedupFirst ((build_rows [recC2]).map (rowKeyWith pyStrOptInt)) =
      [("zebra", some 1), ("ant", some 0)] := by
  have hz : ¬ (("zebra" : String) = "") := by decide
  have ha : ¬ (("ant" : String) = "") := by decide
  have hne : ¬ ((("ant", some 0) : String × Option ℤ) = ("zebra", some 1)) :=
    by decide
  have hk1 : keyLeB ("ant", some 0) ("zebra", some 1) = true := by decide
  have hk2 : keyLeB ("zebra", some 1) ("ant", some 0) = false := by decide
  refine ⟨sortValuesStable_spec, ?_, ?_, ?_⟩ <;>
    norm_num [summariseWith, sortValuesStable, build_rows, recC2, confValue,
      rowKeyWith, classDisplayWith, pyStrOptInt, dedupFirst, sortCmp,
      insertCmp, keyLeB, groupStatsWith, metric, List.flatMap_cons,
      List.flatMap_nil, List.filter_cons, hz, ha, hne, hk1, hk2]

/-- Claim C2 (amended): for every `sort_values` implementation satisfying
numpy's documented contract (a permutation of the input, non-increasing in
the requested column; stability is not guaranteed) and every rendering of
class ids, the Summarizer outputs one SummaryRow per
`(class_display, class_id)` group — the produced keys are a permutation of
the distinct keys of the flattened rows — sorted by the requested key
descending.  The relative order of rows tied on the requested key is left
unspecified by the program; by the counterexample it is in particular not
first-encountered order. -/
theorem claim_C2_amended
    (srt : (SummaryRow → ℚ) → List SummaryRow → List SummaryRow)
    (hsrt : IsSortValuesDesc srt) (rnd : Option ℤ → String)
    (records : List Record) (k : SortKey) :
    ((summariseWith srt rnd records k).map toKey).Perm
      (dedupFirst ((build_rows records).map (rowKeyWith rnd))) ∧
    (summariseWith srt rnd records k).Pairwise
      (fun a b => metric k b ≤ metric k a) := by
  unfold summariseWith
  by_cases h : (build_rows records).isEmpty
  · rw [if_pos h]
    rw [List.isEmpty_iff] at h
    constructor
    · rw [h]
      have hde : dedupFirst (List.map (rowKeyWith rnd) ([] : List Row)) = []
        := by simp [dedupFirst]
      rw [hde]
      exact List.Perm.refl _
    · exact List.Pairwise.nil
  · rw [if_neg h]
    obtain ⟨hperm, hsorted⟩ := hsrt (metric k)
      ((sortCmp keyLeB
          (dedupFirst ((build_rows records).map (rowKeyWith rnd)))).map
        (groupStatsWith rnd (build_rows records)))
    constructor
    · have h2 := hperm.map toKey
      have h3 : ((sortCmp keyLeB
          (dedupFirst ((build_rows records).map (rowKeyWith rnd)))).map
            (groupStatsWith rnd (build_rows records))).map toKey =
          sortCmp keyLeB
            (dedupFirst ((build_rows records).map (rowKeyWith rnd))) := by
        rw [List.map_map]
        rw [show (toKey ∘ groupStatsWith rnd (build_rows records)) = id from
          rfl, List.map_id]
      rw [h3] at h2
      exact h2.trans (sortCmp_perm keyLeB
        (dedupFirst ((build_rows records).map (rowKeyWith rnd))))
    · exact hsorted

/-- Witness for the amended C2: the theorem applied at the stable
realization, the integer id rendering, and a concrete record, its
hypothesis discharged by `sortValuesStable_spec`. -/
theorem claim_C2_witness :
    ((summariseWith sortValuesStable pyStrOptInt [recC2]
        SortKey.num_detections).map toKey).Perm
      (dedupFirst ((build_rows [recC2]).map (rowKeyWith pyStrOptInt))) ∧
    (summariseWith sortValuesStable pyStrOptInt [recC2]
        SortKey.num_detections).Pairwise
      (fun a b => metric SortKey.num_detections b ≤
        metric SortKey.num_detections a) :=
  claim_C2_amended sortValuesStable sortValuesStable_spec pyStrOptInt
    [recC2] SortKey.num_detections

end OpenCVYolo
